import Mathlib

/-!
Verification of the Atlas unified memory recall core (`atlas_recall.py`): the
markdown chunking algorithm, the incremental index-state tracker, and the
multi-source recall / merge / rank pipeline.  Python strings are modelled as
`List Char`, machine reals (similarity scores and distances) as `ℚ`, fallible
calls as `Except` / `Option`, and the persisted index state as an explicit
value threaded through the indexing functions.
-/

/-- Python strings are modelled as lists of characters. -/
abbrev Str : Type := List Char

/-- Model of Python `s.split(sep)` for a one-character separator: splitting the
empty string yields `[""]`, and separators at the ends yield empty fields. -/
def splitOnChar (sep : Char) : List Char → List (List Char)
  | [] => [[]]
  | c :: cs =>
    match splitOnChar sep cs with
    | [] => [[]]
    | h :: t => if c = sep then [] :: h :: t else (c :: h) :: t

/-- Model of Python `sep.join(parts)`. -/
def joinSep (sep : List Char) : List (List Char) → List Char
  | [] => []
  | [l] => l
  | l :: l' :: ls => l ++ sep ++ joinSep sep (l' :: ls)

/-- `'\n'.join(...)`, used to build a chunk's text from its buffered lines. -/
def bufJoin (b : List Str) : Str := joinSep ['\n'] b

/-- `' > '.join(...)`, used to build a chunk's header path string. -/
def hdrJoin (hs : List Str) : Str := joinSep [' ', '>', ' '] hs

/-- `sum(len(l) for l in b)`: the running size counter of the chunk buffer. -/
def sumLens (b : List Str) : Nat := (b.map List.length).sum

/-- The overlap kept on every flush: `current_chunk[-3:] if len(current_chunk) > 3
else current_chunk` — the source always retains the last three lines and never
consults the `overlap` parameter. -/
def ovTake (b : List Str) : List Str := if 3 < b.length then b.drop (b.length - 3) else b

/-- `l.drop (l.length - n)`: the last `n` elements of `l` (all of `l` if `n` exceeds
its length); used to state overlap properties. -/
def lastN (n : Nat) (l : List Str) : List Str := l.drop (l.length - n)

/-- Left-trim of ASCII whitespace. -/
def trimLeftWs (l : Str) : Str := l.dropWhile (fun c => c.isWhitespace)

/-- Model of Python `str.strip()` (whitespace trim at both ends). -/
def pyStrip (l : Str) : Str := trimLeftWs ((trimLeftWs l.reverse).reverse)

/-- `len(line) - len(line.lstrip('#'))`: the markdown heading level. -/
def headerLevel (line : Str) : Nat := (line.takeWhile (fun c => c = '#')).length

/-- `line.lstrip('#').strip()`: the heading text. -/
def headerText (line : Str) : Str := pyStrip (line.dropWhile (fun c => c = '#'))

/-- `line.startswith('#')`. -/
def isHeaderLine (line : Str) : Bool := decide (line.head? = some '#')

/-- One emitted chunk: `{'text': ..., 'headers': ..., 'size': ...}`. -/
structure Chunk where
  text : Str
  headers : Str
  size : Nat
deriving DecidableEq, Repr

/-- The mutable loop state of `chunk_markdown`: emitted chunks, the buffered
lines, the header stack, and the running size. -/
structure SplitState where
  chunks : List Chunk
  current_chunk : List Str
  current_headers : List Str
  current_size : Nat
deriving Repr

/-- Flushing the buffer: emit a chunk from the joined buffered lines with the
current header path and size, then reset the buffer to its retained overlap
lines and recompute the size from them. -/
def flushChunk (st : SplitState) : SplitState :=
  { chunks := st.chunks ++ [⟨bufJoin st.current_chunk, hdrJoin st.current_headers, st.current_size⟩]
    current_chunk := ovTake st.current_chunk
    current_headers := st.current_headers
    current_size := sumLens (ovTake st.current_chunk) }

/-- `current_chunk.append(line); current_size += len(line)`. -/
def appendLine (st : SplitState) (line : Str) : SplitState :=
  { st with current_chunk := st.current_chunk ++ [line]
            current_size := st.current_size + line.length }

/-- `current_headers = current_headers[:level-1] + [header_text]`. -/
def setHeaders (st : SplitState) (line : Str) : SplitState :=
  { st with current_headers := st.current_headers.take (headerLevel line - 1) ++ [headerText line] }

/-- The body of the `for line in lines` loop of `chunk_markdown`: on a heading
line, flush first when the accumulated size exceeds 200 and then update the
header stack; always append the line; flush when the size reached `chunk_size`. -/
def processLine (chunk_size : Nat) (st : SplitState) (line : Str) : SplitState :=
  let st1 := if isHeaderLine line
    then setHeaders (if 200 < st.current_size then flushChunk st else st) line
    else st
  let st2 := appendLine st1 line
  if chunk_size ≤ st2.current_size then flushChunk st2 else st2

/-- The whole loop of `chunk_markdown`, line by line. -/
def chunkFold (chunk_size : Nat) : SplitState → List Str → SplitState
  | st, [] => st
  | st, l :: ls => chunkFold chunk_size (processLine chunk_size st l) ls

/-- `chunk_markdown(content, chunk_size, overlap)`: split the content into lines,
run the loop, and emit the final chunk when the buffer is non-empty.  The
`overlap` parameter is accepted but, as in the source, never read. -/
def chunk_markdown (content : Str) (chunk_size : Nat) (overlap : Nat) : List Chunk :=
  let st := chunkFold chunk_size ⟨[], [], [], 0⟩ (splitOnChar '\n' content)
  if st.current_chunk = [] then st.chunks
  else st.chunks ++ [⟨bufJoin st.current_chunk, hdrJoin st.current_headers, st.current_size⟩]

/-- The header-stack update rule of the loop, as a standalone step function. -/
def hdrUpdate (hs : List Str) (line : Str) : List Str :=
  if isHeaderLine line then hs.take (headerLevel line - 1) ++ [headerText line] else hs

/-- The header stack after scanning a list of lines from the start. -/
def hdrStack (ls : List Str) : List Str := ls.foldl hdrUpdate []

/-- The lines of a chunk, recovered by splitting its text. -/
def chunkLines (c : Chunk) : List Str := splitOnChar '\n' c.text

/-- Bool test used by the overlap claims: the last `m` lines of `c1` coincide with
the first `m` lines of `c2` for some `m ≥ j` ("the chunks share at least `j`
trailing/leading lines"). -/
def sharesAtLeastB (j : Nat) (c1 c2 : Chunk) : Bool :=
  (List.range ((chunkLines c1).length + 1)).any (fun m =>
    decide (j ≤ m) && decide (m ≤ (chunkLines c2).length) &&
    decide (lastN m (chunkLines c1) = (chunkLines c2).take m))

/-- Bool test: every chunk after the first shares at least
`min k (previous chunk's line count)` trailing/leading lines with its
predecessor. -/
def chainSharesB (k : Nat) : List Chunk → Bool
  | c1 :: c2 :: rest => sharesAtLeastB (min k (chunkLines c1).length) c1 c2 && chainSharesB k (c2 :: rest)
  | _ => true

/-- A line is blank when it strips to nothing. -/
def isBlankLine (l : Str) : Prop := pyStrip l = []

instance : DecidablePred isBlankLine := fun l => inferInstanceAs (Decidable (pyStrip l = []))

/-- Python `Path(p).name`: the final path component. -/
def basename (p : Str) : Str := (splitOnChar '/' p).getLastD []

/-- Drop the final suffix of a file name, following `pathlib`: the suffix starts
at the last dot provided that dot is neither the first nor the last character. -/
def dropExt (n : Str) : Str :=
  match n with
  | [] => []
  | c :: rest =>
    if '.' ∈ rest ∧ n.getLast? ≠ some '.' then
      c :: joinSep ['.'] ((splitOnChar '.' rest).dropLast)
    else n

/-- Python `Path(p).stem`. -/
def stem (p : Str) : Str := dropExt (basename p)

/-- Decimal rendering of a natural number, for the chunk document ids. -/
def natToStr (n : Nat) : Str := (Nat.repr n).toList

/-- The persisted index state: the `files` mapping (file path to content
fingerprint, in insertion order as a Python dict) and `last_full_index`
(an ISO timestamp string or `None`). -/
structure IndexState where
  files : List (Str × Str)
  last_full_index : Option Str
deriving DecidableEq, Repr

/-- Python `dict.get` on the insertion-ordered `files` mapping. -/
def assocGet (m : List (Str × Str)) (k : Str) : Option Str :=
  match m with
  | [] => none
  | (k', v) :: rest => if k' = k then some v else assocGet rest k

/-- Python `dict[k] = v` on the insertion-ordered `files` mapping: overwrite in
place when the key is present, append otherwise. -/
def assocSet (m : List (Str × Str)) (k v : Str) : List (Str × Str) :=
  match m with
  | [] => [(k, v)]
  | (k', v') :: rest => if k' = k then (k, v) :: rest else (k', v') :: assocSet rest k v

/-- One document stored in the ChromaDB collection. -/
structure ChromaDoc where
  id : Str
  text : Str
  source_file : Str
  headers : Str
  chunk_index : Nat
  indexed_at : Str
deriving DecidableEq, Repr

/-- `AtlasRecall.index_file(path, force)`.  The file system is a map from paths
to contents, `md5` is the content-fingerprint function, `now` the current
timestamp, and `lettaAvail` whether the optional archival backend is connected;
the persisted index state, the vector-store contents and the archival texts are
threaded explicitly.  Returns the chunk count together with the new state,
store and archival list.  A missing file returns 0 untouched; an unchanged
fingerprint without `force` returns 0 untouched; otherwise the file's old
chunks are deleted, the fresh chunks of `chunk_markdown(content)` inserted, the
archival summary posted when available and the fingerprint recorded. -/
def index_file (md5 : Str → Str) (fs : Str → Option Str) (now : Str) (lettaAvail : Bool)
    (state : IndexState) (store : List ChromaDoc) (archival : List Str)
    (path : Str) (force : Bool) : Nat × IndexState × List ChromaDoc × List Str :=
  match fs path with
  | none => (0, state, store, archival)
  | some content =>
    let file_hash := md5 content
    if force = false ∧ assocGet state.files path = some file_hash then
      (0, state, store, archival)
    else
      let chunks := chunk_markdown content 1000 100
      let store1 := store.filter (fun d => !decide (d.source_file = path))
      let store2 := store1 ++ chunks.enum.map (fun ic =>
        ⟨stem path ++ '_' :: natToStr ic.1 ++ '_' :: now, ic.2.text, path, ic.2.headers, ic.1, now⟩)
      let archival2 := if lettaAvail
        then archival ++ ["File: ".toList ++ basename path ++ "\n\n".toList ++ content.take 2000]
        else archival
      let state2 := { state with files := assocSet state.files path file_hash }
      (chunks.length, state2, store2, archival2)

/-- JSON string escaping as `json.dumps` performs it on printable ASCII input:
only the quote and the backslash need a backslash. -/
def escapeJson (s : Str) : Str :=
  match s with
  | [] => []
  | c :: rest => (if c = '"' ∨ c = '\\' then ['\\', c] else [c]) ++ escapeJson rest

/-- A JSON string literal. -/
def quoteJson (s : Str) : Str := '"' :: (escapeJson s ++ ['"'])

/-- The `files` entries as printed by `json.dumps(state, indent=2)`: each on its
own line with a four-space indent, separated by `",\n"`. -/
def printPairs (pairs : List (Str × Str)) : Str :=
  joinSep [',', '\n']
    (pairs.map (fun kv =>
      ' ' :: ' ' :: ' ' :: ' ' :: (quoteJson kv.1 ++ ':' :: ' ' :: quoteJson kv.2)))

/-- The `files` object as printed by `json.dumps(state, indent=2)`: `{}` when
empty, otherwise the entries between braces at two-space indent. -/
def printFilesObj (pairs : List (Str × Str)) : Str :=
  match pairs with
  | [] => ['\x7b', '\x7d']
  | _ => '\x7b' :: '\n' :: (printPairs pairs ++ ['\n', ' ', ' ', '\x7d'])

/-- `save_index_state`: `json.dumps(state, indent=2)` of the two-key state
object, written to the state file. -/
def save_index_state (s : IndexState) : Str :=
  '\x7b' :: '\n' :: ' ' :: ' ' ::
    (quoteJson ("files".toList) ++ ':' :: ' ' ::
      (printFilesObj s.files ++ ',' :: '\n' :: ' ' :: ' ' ::
        (quoteJson ("last_full_index".toList) ++ ':' :: ' ' ::
          ((match s.last_full_index with
            | none => "null".toList
            | some t => quoteJson t) ++ ['\n', '\x7d']))))

/-- JSON insignificant whitespace. -/
def isJsonWs (c : Char) : Bool := decide (c = ' ' ∨ c = '\n' ∨ c = '\t' ∨ c = '\r')

/-- Skip insignificant whitespace. -/
def skipWs (s : Str) : Str := s.dropWhile isJsonWs

/-- Body of a JSON string after the opening quote, undoing the two escapes the
writer produces; returns the decoded string and the rest of the input. -/
def parseStringBody : Str → Option (Str × Str)
  | [] => none
  | c :: rest =>
    if c = '"' then some ([], rest)
    else if c = '\\' then
      match rest with
      | [] => none
      | e :: rest2 =>
        if e = '"' ∨ e = '\\' then
          match parseStringBody rest2 with
          | some (s, r) => some (e :: s, r)
          | none => none
        else none
    else
      match parseStringBody rest with
      | some (s, r) => some (c :: s, r)
      | none => none

/-- A JSON string literal, starting at its opening quote. -/
def parseJString (s : Str) : Option (Str × Str) :=
  match s with
  | [] => none
  | c :: rest => if c = '"' then parseStringBody rest else none

/-- The members of a non-empty JSON object of string keys and string values,
starting after the opening brace; consumes the closing brace. -/
def parsePairsAux (fuel : Nat) (s : Str) : Option (List (Str × Str) × Str) :=
  match fuel with
  | 0 => none
  | fuel + 1 =>
    match parseJString (skipWs s) with
    | none => none
    | some (k, r1) =>
      match skipWs r1 with
      | [] => none
      | c2 :: r2 =>
        if c2 = ':' then
          match parseJString (skipWs r2) with
          | none => none
          | some (v, r3) =>
            match skipWs r3 with
            | [] => none
            | c3 :: r4 =>
              if c3 = ',' then
                match parsePairsAux fuel r4 with
                | some (ps, r5) => some ((k, v) :: ps, r5)
                | none => none
              else if c3 = '\x7d' then some ([(k, v)], r4)
              else none
        else none

/-- A JSON object of string keys and string values. -/
def parseFilesObj (fuel : Nat) (s : Str) : Option (List (Str × Str) × Str) :=
  match skipWs s with
  | [] => none
  | c :: r =>
    if c = '\x7b' then
      match skipWs r with
      | [] => parsePairsAux fuel r
      | c2 :: r2 => if c2 = '\x7d' then some ([], r2) else parsePairsAux fuel r
    else none

/-- The `last_full_index` value: `null` or a string. -/
def parseLfi (s : Str) : Option (Option Str × Str) :=
  let t := skipWs s
  if t.take 4 = ['n', 'u', 'l', 'l'] then some (none, t.drop 4)
  else
    match parseJString t with
    | some (v, r) => some (some v, r)
    | none => none

/-- Parse a serialized index state: the JSON document shape `json.loads` reads
back from the state file (an object with the `files` mapping and the
`last_full_index` value), rejecting anything else. -/
def parseIndexState (s : Str) : Option IndexState :=
  match skipWs s with
  | [] => none
  | c :: r =>
    if c = '\x7b' then
      match parseJString (skipWs r) with
      | none => none
      | some (k1, r1) =>
        if k1 = "files".toList then
          match skipWs r1 with
          | [] => none
          | c1 :: r2 =>
            if c1 = ':' then
              match parseFilesObj (s.length + 1) r2 with
              | none => none
              | some (files, r3) =>
                match skipWs r3 with
                | [] => none
                | c3 :: r4 =>
                  if c3 = ',' then
                    match parseJString (skipWs r4) with
                    | none => none
                    | some (k2, r5) =>
                      if k2 = "last_full_index".toList then
                        match skipWs r5 with
                        | [] => none
                        | c5 :: r6 =>
                          if c5 = ':' then
                            match parseLfi r6 with
                            | none => none
                            | some (lfi, r7) =>
                              match skipWs r7 with
                              | [] => none
                              | c7 :: r8 =>
                                if c7 = '\x7d' then
                                  if skipWs r8 = [] then some ⟨files, lfi⟩ else none
                                else none
                          else none
                      else none
                  else none
            else none
        else none
    else none

/-- `load_index_state`: when the state file is absent, the default empty state;
otherwise the parsed content of the file. -/
def load_index_state (file : Option Str) : Option IndexState :=
  match file with
  | none => some ⟨[], none⟩
  | some txt => parseIndexState txt

/-- Printable-ASCII characters, on which the JSON writer model is exact. -/
def wfChar (c : Char) : Prop := 32 ≤ c.toNat ∧ c.toNat ≤ 126

instance : DecidablePred wfChar := fun c =>
  inferInstanceAs (Decidable (32 ≤ c.toNat ∧ c.toNat ≤ 126))

/-- Strings of printable-ASCII characters. -/
def wfStr (s : Str) : Prop := ∀ c ∈ s, wfChar c

instance : DecidablePred wfStr := fun s =>
  inferInstanceAs (Decidable (∀ c ∈ s, wfChar c))

/-- An index state of the persisted shape: path and fingerprint strings and the
optional timestamp are printable ASCII and the file keys are distinct (a Python
dict cannot hold duplicate keys). -/
def WfState (s : IndexState) : Prop :=
  (∀ kv ∈ s.files, wfStr kv.1 ∧ wfStr kv.2) ∧
  (∀ t, s.last_full_index = some t → wfStr t) ∧
  (s.files.map Prod.fst).Nodup

/-- A raw fact-memory (mem0) search hit: optional `memory`, `text` and `score`
entries of the backend's dict. -/
structure Mem0Raw where
  memory : Option Str
  text : Option Str
  score : Option ℚ
deriving DecidableEq, Repr

/-- A mem0 hit as normalized by `recall`. -/
structure Mem0Norm where
  text : Str
  score : ℚ
  source : Str
deriving DecidableEq, Repr

/-- The metadata of a vector-store hit (`source_file` and `headers` may be
absent). -/
structure ChromaMeta where
  source_file : Option Str
  headers : Option Str
deriving DecidableEq, Repr

/-- One vector-store hit: a document, its metadata and its distance. -/
structure ChromaHit where
  document : Str
  meta : ChromaMeta
  distance : ℚ
deriving DecidableEq, Repr

/-- A vector-store response: aligned hits, plus whether the response carried a
`distances` field at all (when absent every distance is read as 0). -/
structure ChromaResp where
  hits : List ChromaHit
  hasDistances : Bool
deriving DecidableEq, Repr

/-- A chroma hit as normalized by `recall`. -/
structure ChromaNorm where
  text : Str
  file : Str
  headers : Str
  distance : ℚ
  source : Str
deriving DecidableEq, Repr

/-- A raw archival (Letta) item: its optional `text` entry. -/
structure LettaItem where
  text : Option Str
deriving DecidableEq, Repr

/-- An archival search response: HTTP status and items. -/
structure LettaResp where
  status : Nat
  items : List LettaItem
deriving DecidableEq, Repr

/-- A letta hit as normalized by `recall`. -/
structure LettaNorm where
  text : Str
  source : Str
deriving DecidableEq, Repr

/-- The result object of `AtlasRecall.recall`: per-backend normalized hits and
per-backend diagnostic error fields. -/
structure RecallOut where
  query : Str
  timestamp : Str
  mem0 : List Mem0Norm
  chroma : List ChromaNorm
  letta : List LettaNorm
  mem0_error : Option Str
  chroma_error : Option Str
  letta_error : Option Str
deriving DecidableEq, Repr

/-- `AtlasRecall.recall(query, limit)`.  Each backend call is a value of
`Except` (an exception raised by the backend is its `error` case, caught by the
surrounding `try`/`except` and recorded in the corresponding `*_error`
diagnostic field); the archival backend is `none` when not connected, in which
case its hit list stays empty and no error is recorded.  `strRepr` models
Python `str(r)`, the final fallback for a mem0 hit's display text.  Mem0 hits
get `r.get("score", 0)`; chroma hits read the per-hit distance only when the
response has a `distances` field, else 0; letta items are taken from a
status-200 response only. -/
def AtlasRecall.recall (strRepr : Mem0Raw → Str) (query now : Str) (limit : Nat)
    (mem0b : Except Str (List Mem0Raw))
    (chromab : Except Str ChromaResp)
    (lettab : Option (Except Str LettaResp)) : RecallOut :=
  let m : List Mem0Norm × Option Str :=
    match mem0b with
    | .ok l => (l.map (fun r =>
        ⟨r.memory.getD (r.text.getD (strRepr r)), r.score.getD 0, "mem0".toList⟩), none)
    | .error e => ([], some e)
  let c : List ChromaNorm × Option Str :=
    match chromab with
    | .ok resp => (resp.hits.map (fun h =>
        ⟨h.document, h.meta.source_file.getD ("unknown".toList), h.meta.headers.getD [],
         if resp.hasDistances then h.distance else 0, "chroma".toList⟩), none)
    | .error e => ([], some e)
  let lt : List LettaNorm × Option Str :=
    match lettab with
    | none => ([], none)
    | some (.ok resp) =>
      (if resp.status = 200 then resp.items.map (fun it => ⟨it.text.getD [], "letta".toList⟩)
       else [], none)
    | some (.error e) => ([], some e)
  ⟨query, now, m.1, c.1, lt.1, m.2, c.2, lt.2⟩

/-- The common record every backend hit is projected into by
`recall_unified`. -/
structure NormalizedResult where
  text : Str
  source : Str
  headers : Option Str
  score : ℚ
deriving DecidableEq, Repr

/-- The "normalize and combine" stage of `recall_unified`: mem0 items pass
their text and score through (`item.get("score", 0.5)` in the source — the
items built by `recall` always carry a score, so the projection is the
identity on it); chroma items get text truncated to 500 characters, the source
label `chroma:` + basename and score `1 - min(distance, 1)`; letta items get
text truncated to 500 and the fixed score `0.7`. -/
def mergedResults (raw : RecallOut) : List NormalizedResult :=
  raw.mem0.map (fun i => ⟨i.text, "mem0".toList, none, i.score⟩)
  ++ raw.chroma.map (fun i =>
      ⟨i.text.take 500, "chroma:".toList ++ basename i.file, some i.headers,
       1 - min i.distance 1⟩)
  ++ raw.letta.map (fun i => ⟨i.text.take 500, "letta".toList, none, 7/10⟩)

/-- The dedup fingerprint: `hashlib.md5(item["text"][:100])`, modelled as the
100-character prefix itself (the digest is a deterministic injective-for-our-
purposes function of that prefix). -/
def resKey (r : NormalizedResult) : Str := r.text.take 100

/-- The descending-score order used by `sorted(..., key=score, reverse=True)`. -/
def scoreDescRel : NormalizedResult → NormalizedResult → Prop := fun a b => b.score ≤ a.score

instance : DecidableRel scoreDescRel := fun a b => inferInstanceAs (Decidable (b.score ≤ a.score))

instance : IsTotal NormalizedResult scoreDescRel :=
  ⟨fun a b => (le_total b.score a.score).imp id id⟩

instance : IsTrans NormalizedResult scoreDescRel :=
  ⟨fun _ _ _ h1 h2 => le_trans h2 h1⟩

/-- Python's `sorted(all_results, key=lambda x: x.get("score", 0), reverse=True)`:
a stable sort by non-increasing score (every entry carries a score, so the 0
default never fires). -/
def sortByScoreDesc (l : List NormalizedResult) : List NormalizedResult :=
  List.insertionSort scoreDescRel l

/-- The dedup loop: walk the sorted results keeping the first occurrence of each
text fingerprint, accumulating the `seen` set. -/
def dedupeByKey (seen : List Str) : List NormalizedResult → List NormalizedResult
  | [] => []
  | r :: rs =>
    if resKey r ∈ seen then dedupeByKey seen rs
    else r :: dedupeByKey (resKey r :: seen) rs

/-- The sort / dedup / truncate tail of `recall_unified`. -/
def rankDedup (all : List NormalizedResult) (limit : Nat) : List NormalizedResult :=
  (dedupeByKey [] (sortByScoreDesc all)).take limit

/-- `AtlasRecall.recall_unified(query, limit)`: run `recall` with `limit * 2`,
normalize and combine all backends' hits, then sort by descending score,
dedupe by text fingerprint and truncate to `limit`. -/
def AtlasRecall.recall_unified (strRepr : Mem0Raw → Str) (query now : Str) (limit : Nat)
    (mem0b : Except Str (List Mem0Raw))
    (chromab : Except Str ChromaResp)
    (lettab : Option (Except Str LettaResp)) : List NormalizedResult :=
  rankDedup (mergedResults (AtlasRecall.recall strRepr query now (limit * 2) mem0b chromab lettab))
    limit

/-- Loop invariant for chunk coverage: the line `l` is already a substring of
some emitted chunk, or still sits in the buffer. -/
def CoversLine (st : SplitState) (l : Str) : Prop :=
  (∃ c ∈ st.chunks, ∃ p q, c.text = p ++ l ++ q) ∨ l ∈ st.current_chunk

/-- Loop invariant for the no-empty-chunk property (`done` is the list of lines
consumed so far): the size counter matches the buffer, every emitted chunk has
non-empty text, before the first flush the buffer is exactly the consumed
lines, and after a flush the buffer is neither `[]` nor `[""]`. -/
def NonEmptyInv (st : SplitState) (done : List Str) : Prop :=
  st.current_size = sumLens st.current_chunk ∧
  (∀ c ∈ st.chunks, c.text ≠ []) ∧
  (st.chunks = [] → st.current_chunk = done) ∧
  (st.chunks ≠ [] → st.current_chunk ≠ [] ∧ st.current_chunk ≠ [[]])

/-- Loop invariant for the overlap property: the emitted chunks are chained by
the three-line overlap, the buffer lines are newline-free, the size counter
matches the buffer, and the buffer extends the retained overlap of the last
emitted chunk. -/
def OverlapInv (st : SplitState) : Prop :=
  List.Chain' (fun c1 c2 => sharesAtLeastB (min 3 (chunkLines c1).length) c1 c2 = true) st.chunks ∧
  (∀ l ∈ st.current_chunk, '\n' ∉ l) ∧
  st.current_size = sumLens st.current_chunk ∧
  (∀ c, st.chunks.getLast? = some c → ∃ L rest, L ≠ [] ∧ (∀ l ∈ L, '\n' ∉ l) ∧
    c.text = bufJoin L ∧ st.current_chunk = ovTake L ++ rest)

/-- A chunk's header path is the one in scope at the end of some consumed
prefix `p` of the document, and the chunk's last line is the last line of `p`. -/
def HdrOKC (done : List Str) (c : Chunk) : Prop :=
  ∃ p s L, done = p ++ s ∧ p ≠ [] ∧ L ≠ [] ∧ (∀ l ∈ L, '\n' ∉ l) ∧
    c.text = bufJoin L ∧ c.headers = hdrJoin (hdrStack p) ∧ L.getLast? = p.getLast?

/-- Loop invariant for the header-path property (`done` is the list of lines
consumed so far). -/
def HeaderInv (done : List Str) (st : SplitState) : Prop :=
  st.current_headers = hdrStack done ∧
  (∃ t, done = t ++ st.current_chunk) ∧
  (∀ l ∈ done, '\n' ∉ l) ∧
  st.current_size = sumLens st.current_chunk ∧
  (∀ c ∈ st.chunks, HdrOKC done c)

/-! Basic lemmas about the string-splitting and joining helpers. -/

theorem joinSep_cons_cons (sep a b : Str) (t : List Str) :
    joinSep sep (a :: b :: t) = a ++ sep ++ joinSep sep (b :: t) := rfl

theorem splitOnChar_ne_nil (sep : Char) (x : List Char) : splitOnChar sep x ≠ [] := by
  cases x with
  | nil => simp [splitOnChar]
  | cons c cs =>
    rw [splitOnChar]
    cases splitOnChar sep cs with
    | nil => simp
    | cons a t =>
      dsimp only
      split <;> simp

theorem joinSep_splitOnChar (sep : Char) (x : List Char) :
    joinSep [sep] (splitOnChar sep x) = x := by
  induction x with
  | nil => rfl
  | cons c cs ih =>
    rw [splitOnChar]
    cases h : splitOnChar sep cs with
    | nil => exact absurd h (splitOnChar_ne_nil sep cs)
    | cons a t =>
      rw [h] at ih
      dsimp only
      by_cases hc : c = sep
      · rw [if_pos hc, joinSep_cons_cons]
        simp only [List.nil_append, List.singleton_append]
        rw [ih, hc]
      · rw [if_neg hc]
        cases t with
        | nil =>
          simp only [joinSep] at ih ⊢
          rw [ih]
        | cons b t' =>
          simp only [joinSep_cons_cons] at ih ⊢
          rw [List.cons_append, List.cons_append, ih]

theorem not_mem_of_mem_splitOnChar (sep : Char) (x : List Char) (l : List Char)
    (hl : l ∈ splitOnChar sep x) : sep ∉ l := by
  induction x generalizing l with
  | nil => simp [splitOnChar] at hl; simp [hl]
  | cons c cs ih =>
    rw [splitOnChar] at hl
    cases h : splitOnChar sep cs with
    | nil => exact absurd h (splitOnChar_ne_nil sep cs)
    | cons a t =>
      rw [h] at hl
      dsimp only at hl
      by_cases hc : c = sep
      · rw [if_pos hc] at hl
        rcases List.mem_cons.mp hl with h1 | h2
        · simp [h1]
        · exact ih l (h ▸ h2)
      · rw [if_neg hc] at hl
        rcases List.mem_cons.mp hl with h1 | h2
        · subst h1
          intro hm
          rcases List.mem_cons.mp hm with h3 | h4
          · exact hc h3.symm
          · exact ih a (h ▸ List.mem_cons_self a t) h4
        · exact ih l (h ▸ List.mem_cons_of_mem a h2)

theorem splitOnChar_of_not_mem (sep : Char) (a : List Char) (h : sep ∉ a) :
    splitOnChar sep a = [a] := by
  induction a with
  | nil => rfl
  | cons c cs ih =>
    have hc : c ≠ sep := fun hc => h (hc ▸ List.mem_cons_self c cs)
    have hcs : sep ∉ cs := fun hm => h (List.mem_cons_of_mem c hm)
    simp only [splitOnChar, ih hcs, if_neg hc]

theorem splitOnChar_append (sep : Char) (a r : List Char) (h : sep ∉ a)
    (h' : Str) (t : List Str) (hr : splitOnChar sep r = h' :: t) :
    splitOnChar sep (a ++ r) = (a ++ h') :: t := by
  induction a with
  | nil => simpa using hr
  | cons c cs ih =>
    have hc : c ≠ sep := fun hc => h (hc ▸ List.mem_cons_self c cs)
    have hcs : sep ∉ cs := fun hm => h (List.mem_cons_of_mem c hm)
    rw [List.cons_append, splitOnChar, ih hcs]
    dsimp only
    rw [if_neg hc, List.cons_append]

theorem splitOnChar_sep_cons (sep : Char) (z : List Char) :
    splitOnChar sep (sep :: z) = [] :: splitOnChar sep z := by
  rw [splitOnChar]
  cases h : splitOnChar sep z with
  | nil => exact absurd h (splitOnChar_ne_nil sep z)
  | cons a t => simp

theorem splitOnChar_joinSep (sep : Char) (L : List Str) (hne : L ≠ [])
    (hfree : ∀ l ∈ L, sep ∉ l) :
    splitOnChar sep (joinSep [sep] L) = L := by
  induction L with
  | nil => exact absurd rfl hne
  | cons a t ih =>
    cases t with
    | nil => exact splitOnChar_of_not_mem sep a (hfree a (List.mem_cons_self a []))
    | cons b t' =>
      have ha : sep ∉ a := hfree a (List.mem_cons_self a (b :: t'))
      have hrest : ∀ l ∈ b :: t', sep ∉ l := fun l hl => hfree l (List.mem_cons_of_mem a hl)
      have ihr := ih (by simp) hrest
      rw [joinSep_cons_cons, List.append_assoc, List.singleton_append]
      rw [splitOnChar_append sep a (sep :: joinSep [sep] (b :: t')) ha []
        (splitOnChar sep (joinSep [sep] (b :: t')))
        (splitOnChar_sep_cons sep (joinSep [sep] (b :: t')))]
      rw [ihr, List.append_nil]

theorem chunkLines_of_bufJoin (L : List Str) (hne : L ≠ [])
    (hfree : ∀ l ∈ L, '\n' ∉ l) :
    splitOnChar '\n' (bufJoin L) = L :=
  splitOnChar_joinSep '\n' L hne hfree

theorem sumLens_append (a b : List Str) : sumLens (a ++ b) = sumLens a + sumLens b := by
  simp [sumLens]

theorem sumLens_cons (l : Str) (b : List Str) : sumLens (l :: b) = l.length + sumLens b := by
  simp [sumLens]

theorem sumLens_singleton (l : Str) : sumLens [l] = l.length := by simp [sumLens]

theorem bufJoin_length (L : List Str) : (bufJoin L).length = sumLens L + (L.length - 1) := by
  induction L with
  | nil => simp [bufJoin, joinSep, sumLens]
  | cons a t ih =>
    cases t with
    | nil => simp [bufJoin, joinSep, sumLens]
    | cons b t' =>
      have hb : bufJoin (a :: b :: t') = a ++ ['\n'] ++ bufJoin (b :: t') := rfl
      rw [hb, List.length_append, List.length_append, ih, sumLens_cons a (b :: t')]
      simp only [List.length_cons, List.length_nil]
      omega

theorem bufJoin_ne_nil (L : List Str) (h : 1 ≤ sumLens L ∨ 2 ≤ L.length) :
    bufJoin L ≠ [] := by
  intro hc
  have hl := bufJoin_length L
  rw [hc] at hl
  simp only [List.length_nil] at hl
  omega

theorem mem_bufJoin_infix (l : Str) (L : List Str) (hl : l ∈ L) :
    ∃ p q, bufJoin L = p ++ l ++ q := by
  induction L with
  | nil => cases hl
  | cons a t ih =>
    cases t with
    | nil =>
      rcases List.mem_singleton.mp hl with rfl
      exact ⟨[], [], by simp [bufJoin, joinSep]⟩
    | cons b t' =>
      rcases List.mem_cons.mp hl with h1 | h2
      · subst h1
        exact ⟨[], '\n' :: joinSep ['\n'] (b :: t'), by simp [bufJoin, joinSep_cons_cons]⟩
      · rcases ih h2 with ⟨p, q, hpq⟩
        refine ⟨a ++ ['\n'] ++ p, q, ?_⟩
        simp only [bufJoin, joinSep_cons_cons] at hpq ⊢
        rw [hpq]
        simp [List.append_assoc]

theorem ovTake_eq_drop (b : List Str) :
    ovTake b = b.drop (b.length - min 3 b.length) := by
  unfold ovTake
  split
  · rename_i h
    rw [min_eq_left (le_of_lt h)]
  · rename_i h
    rw [min_eq_right (by omega), Nat.sub_self, List.drop_zero]

theorem ovTake_length (b : List Str) : (ovTake b).length = min 3 b.length := by
  rw [ovTake_eq_drop, List.length_drop]
  omega

theorem ovTake_lastN (b : List Str) : ovTake b = lastN (min 3 b.length) b := by
  rw [ovTake_eq_drop]; rfl

theorem exists_prefix_ovTake (b : List Str) : ∃ p, b = p ++ ovTake b := by
  rw [ovTake_eq_drop]
  exact ⟨b.take (b.length - min 3 b.length), (List.take_append_drop _ b).symm⟩

theorem ovTake_subset (b : List Str) : ovTake b ⊆ b := by
  rw [ovTake_eq_drop]
  exact List.drop_subset _ b

theorem ovTake_ne_nil (b : List Str) (hb : b ≠ []) : ovTake b ≠ [] := by
  have h1 := ovTake_length b
  intro hc
  rw [hc] at h1
  simp only [List.length_nil] at h1
  have : 0 < b.length := List.length_pos.mpr hb
  omega

/-! Coverage of source lines by chunk texts (claim C8). -/

theorem coversLine_flush (st : SplitState) (l : Str) (h : CoversLine st l) :
    CoversLine (flushChunk st) l := by
  rcases h with ⟨c, hc, p, q, hpq⟩ | hbuf
  · exact Or.inl ⟨c, List.mem_append_left _ hc, p, q, hpq⟩
  · rcases mem_bufJoin_infix l st.current_chunk hbuf with ⟨p, q, hpq⟩
    exact Or.inl ⟨⟨bufJoin st.current_chunk, hdrJoin st.current_headers, st.current_size⟩,
      List.mem_append_right _ (List.mem_singleton.mpr rfl), p, q, hpq⟩

theorem coversLine_appendLine (st : SplitState) (l line : Str) (h : CoversLine st l) :
    CoversLine (appendLine st line) l := by
  rcases h with hl | hbuf
  · exact Or.inl hl
  · exact Or.inr (List.mem_append_left _ hbuf)

theorem coversLine_appendLine_self (st : SplitState) (line : Str) :
    CoversLine (appendLine st line) line :=
  Or.inr (List.mem_append_right _ (List.mem_singleton.mpr rfl))

theorem coversLine_setHeaders (st : SplitState) (l line : Str) (h : CoversLine st l) :
    CoversLine (setHeaders st line) l := h

theorem processLine_shape (cs : Nat) (st : SplitState) (line : Str) :
    ∃ st1, ((st1 = st ∧ ¬ isHeaderLine line = true) ∨
        (st1 = setHeaders st line ∧ isHeaderLine line = true) ∨
        (st1 = setHeaders (flushChunk st) line ∧ isHeaderLine line = true ∧
          200 < st.current_size)) ∧
      ((processLine cs st line = flushChunk (appendLine st1 line) ∧
          cs ≤ (appendLine st1 line).current_size) ∨
        processLine cs st line = appendLine st1 line) := by
  simp only [processLine]
  by_cases hh : isHeaderLine line = true
  · by_cases hf : 200 < st.current_size
    · refine ⟨setHeaders (flushChunk st) line, Or.inr (Or.inr ⟨rfl, hh, hf⟩), ?_⟩
      rw [if_pos hh, if_pos hf]
      split
      · rename_i hsz
        exact Or.inl ⟨rfl, hsz⟩
      · exact Or.inr rfl
    · refine ⟨setHeaders st line, Or.inr (Or.inl ⟨rfl, hh⟩), ?_⟩
      rw [if_pos hh, if_neg hf]
      split
      · rename_i hsz
        exact Or.inl ⟨rfl, hsz⟩
      · exact Or.inr rfl
  · refine ⟨st, Or.inl ⟨rfl, hh⟩, ?_⟩
    rw [if_neg hh]
    split
    · rename_i hsz
      exact Or.inl ⟨rfl, hsz⟩
    · exact Or.inr rfl

theorem coversLine_processLine (cs : Nat) (st : SplitState) (line l : Str)
    (h : CoversLine st l) : CoversLine (processLine cs st line) l := by
  rcases processLine_shape cs st line with ⟨st1, hst1, hout⟩
  have h1 : CoversLine st1 l := by
    rcases hst1 with ⟨rfl, _⟩ | ⟨rfl, _⟩ | ⟨rfl, _, _⟩
    · exact h
    · exact coversLine_setHeaders _ _ _ h
    · exact coversLine_setHeaders _ _ _ (coversLine_flush _ _ h)
  rcases hout with ⟨heq, _⟩ | heq
  · rw [heq]
    exact coversLine_flush _ _ (coversLine_appendLine _ _ _ h1)
  · rw [heq]
    exact coversLine_appendLine _ _ _ h1

theorem coversLine_processLine_self (cs : Nat) (st : SplitState) (line : Str) :
    CoversLine (processLine cs st line) line := by
  rcases processLine_shape cs st line with ⟨st1, _, hout⟩
  rcases hout with ⟨heq, _⟩ | heq
  · rw [heq]
    exact coversLine_flush _ _ (coversLine_appendLine_self _ _)
  · rw [heq]
    exact coversLine_appendLine_self _ _

theorem coversLine_chunkFold (cs : Nat) (ls : List Str) (st : SplitState) (l : Str)
    (h : CoversLine st l ∨ l ∈ ls) : CoversLine (chunkFold cs st ls) l := by
  induction ls generalizing st with
  | nil =>
    rcases h with h | h
    · exact h
    · cases h
  | cons x xs ih =>
    rcases h with h | h
    · exact ih _ (Or.inl (coversLine_processLine cs st x l h))
    · rcases List.mem_cons.mp h with rfl | hxs
      · exact ih _ (Or.inl (coversLine_processLine_self cs st l))
      · exact ih _ (Or.inr hxs)

/-- Claim C8 — every non-blank line of the document appears verbatim (as a
substring) in the text of at least one chunk returned by `chunk_markdown`.
(The proof does not even need the non-blank hypothesis: every line is
covered.) -/
theorem chunk_markdown_covers_lines (content : Str) (cs ov : Nat) (l : Str)
    (hl : l ∈ splitOnChar '\n' content) (hnb : ¬ isBlankLine l) :
    ∃ c ∈ chunk_markdown content cs ov, ∃ p q, c.text = p ++ l ++ q := by
  have hcov : CoversLine (chunkFold cs ⟨[], [], [], 0⟩ (splitOnChar '\n' content)) l :=
    coversLine_chunkFold cs _ _ l (Or.inr hl)
  simp only [chunk_markdown]
  split
  · rename_i hemp
    rcases hcov with ⟨c, hc, p, q, hpq⟩ | hbuf
    · exact ⟨c, hc, p, q, hpq⟩
    · rw [hemp] at hbuf
      cases hbuf
  · rcases hcov with ⟨c, hc, p, q, hpq⟩ | hbuf
    · exact ⟨c, List.mem_append_left _ hc, p, q, hpq⟩
    · rcases mem_bufJoin_infix l _ hbuf with ⟨p, q, hpq⟩
      exact ⟨_, List.mem_append_right _ (List.mem_singleton.mpr rfl), p, q, hpq⟩

/-- Witness for C8 at a concrete document. -/
theorem chunk_markdown_covers_lines_witness :
    ∃ c ∈ chunk_markdown ("ab".toList) 1000 100, ∃ p q, c.text = p ++ "ab".toList ++ q :=
  chunk_markdown_covers_lines ("ab".toList) 1000 100 ("ab".toList) (by decide) (by decide)

/-! Non-empty chunk texts (claim C7). -/

theorem ne_of_sumLens_pos (b : List Str) (h : 1 ≤ sumLens b) : b ≠ [] ∧ b ≠ [[]] := by
  constructor
  · intro hb
    rw [hb] at h
    simp [sumLens] at h
  · intro hb
    rw [hb] at h
    simp [sumLens] at h

theorem bufJoin_ne_nil_of_ne (b : List Str) (h1 : b ≠ []) (h2 : b ≠ [[]]) :
    bufJoin b ≠ [] := by
  cases b with
  | nil => exact absurd rfl h1
  | cons x t =>
    cases t with
    | nil =>
      have hx : x ≠ [] := fun hx => h2 (by rw [hx])
      apply bufJoin_ne_nil
      left
      rw [sumLens_singleton]
      exact Nat.pos_of_ne_zero fun h0 => hx (List.length_eq_zero.mp h0)
    | cons y t' =>
      apply bufJoin_ne_nil
      right
      simp

theorem ovTake_ne_of_ne (b : List Str) (h1 : b ≠ []) (h2 : b ≠ [[]]) :
    ovTake b ≠ [] ∧ ovTake b ≠ [[]] := by
  rcases Nat.lt_or_ge b.length 2 with hlen | hlen
  · have hb1 : b.length = 1 := by
      have : 0 < b.length := List.length_pos.mpr h1
      omega
    have hov : ovTake b = b := by
      unfold ovTake
      rw [if_neg (by omega)]
    rw [hov]
    exact ⟨h1, h2⟩
  · have hlo := ovTake_length b
    constructor
    · intro hc
      rw [hc] at hlo
      simp only [List.length_nil] at hlo
      omega
    · intro hc
      rw [hc] at hlo
      simp only [List.length_singleton] at hlo
      omega

theorem nonEmptyInv_flush (st : SplitState) (done : List Str)
    (h : NonEmptyInv st done) (hpos : 1 ≤ st.current_size) :
    NonEmptyInv (flushChunk st) done := by
  obtain ⟨hsz, hne, _, _⟩ := h
  have hsum : 1 ≤ sumLens st.current_chunk := hsz ▸ hpos
  have hb := ne_of_sumLens_pos _ hsum
  refine ⟨rfl, ?_, ?_, ?_⟩
  · intro c hc
    rcases List.mem_append.mp hc with hold | hnew
    · exact hne c hold
    · rcases List.mem_singleton.mp hnew with rfl
      exact bufJoin_ne_nil _ (Or.inl hsum)
  · intro hnil
    exact absurd hnil (by simp [flushChunk])
  · intro _
    exact ovTake_ne_of_ne _ hb.1 hb.2

theorem nonEmptyInv_appendLine (st : SplitState) (done : List Str) (line : Str)
    (h : NonEmptyInv st done) : NonEmptyInv (appendLine st line) (done ++ [line]) := by
  obtain ⟨hsz, hne, hpre, hpost⟩ := h
  refine ⟨?_, hne, ?_, ?_⟩
  · show st.current_size + line.length = sumLens (st.current_chunk ++ [line])
    rw [sumLens_append, sumLens_singleton, hsz]
  · intro hnil
    show st.current_chunk ++ [line] = done ++ [line]
    rw [hpre hnil]
  · intro hnn
    obtain ⟨h1, _⟩ := hpost hnn
    have hch : (appendLine st line).current_chunk = st.current_chunk ++ [line] := rfl
    rw [hch]
    constructor
    · simp
    · intro hc
      have hlen : (st.current_chunk ++ [line]).length = 1 := by rw [hc]; rfl
      rw [List.length_append, List.length_singleton] at hlen
      have h0 : st.current_chunk.length = 0 := by omega
      exact h1 (List.length_eq_zero.mp h0)

theorem nonEmptyInv_processLine (cs : Nat) (hcs : 1 ≤ cs) (st : SplitState)
    (done : List Str) (line : Str) (h : NonEmptyInv st done) :
    NonEmptyInv (processLine cs st line) (done ++ [line]) := by
  rcases processLine_shape cs st line with ⟨st1, hst1, hout⟩
  have h1 : NonEmptyInv st1 done := by
    rcases hst1 with ⟨rfl, _⟩ | ⟨rfl, _⟩ | ⟨rfl, _, hf⟩
    · exact h
    · exact h
    · exact nonEmptyInv_flush st done h (by omega)
  rcases hout with ⟨heq, hsz⟩ | heq
  · rw [heq]
    exact nonEmptyInv_flush _ _ (nonEmptyInv_appendLine st1 done line h1) (le_trans hcs hsz)
  · rw [heq]
    exact nonEmptyInv_appendLine st1 done line h1

theorem nonEmptyInv_chunkFold (cs : Nat) (hcs : 1 ≤ cs) (ls : List Str) :
    ∀ st done, NonEmptyInv st done → NonEmptyInv (chunkFold cs st ls) (done ++ ls) := by
  induction ls with
  | nil =>
    intro st done h
    simpa using h
  | cons x xs ih =>
    intro st done h
    have h1 := nonEmptyInv_processLine cs hcs st done x h
    have h2 := ih _ _ h1
    simpa using h2

/-- Claim C7 amended — on a non-empty document and a positive `chunk_size`,
every chunk emitted by `chunk_markdown` has non-empty text. -/
theorem chunk_markdown_text_ne_nil (content : Str) (cs ov : Nat)
    (hc : content ≠ []) (hcs : 1 ≤ cs) :
    ∀ c ∈ chunk_markdown content cs ov, c.text ≠ [] := by
  have hinit : NonEmptyInv ⟨[], [], [], 0⟩ [] :=
    ⟨rfl, by simp, fun _ => rfl, fun hne => absurd rfl hne⟩
  have hInv := nonEmptyInv_chunkFold cs hcs (splitOnChar '\n' content) _ _ hinit
  rw [List.nil_append] at hInv
  simp only [chunk_markdown]
  split
  · intro c hcm
    exact hInv.2.1 c hcm
  · rename_i hbne
    intro c hcm
    rcases List.mem_append.mp hcm with hold | hnew
    · exact hInv.2.1 c hold
    · rcases List.mem_singleton.mp hnew with rfl
      show bufJoin (chunkFold cs ⟨[], [], [], 0⟩ (splitOnChar '\n' content)).current_chunk ≠ []
      by_cases hch : (chunkFold cs ⟨[], [], [], 0⟩ (splitOnChar '\n' content)).chunks = []
      · rw [hInv.2.2.1 hch]
        rw [show bufJoin (splitOnChar '\n' content) = content from joinSep_splitOnChar '\n' content]
        exact hc
      · obtain ⟨h1, h2⟩ := hInv.2.2.2 hch
        exact bufJoin_ne_nil_of_ne _ h1 h2

/-- Witness for the amended C7: the single chunk of the concrete non-empty
document `"ab"` has non-empty text. -/
theorem chunk_markdown_text_ne_nil_witness :
    (Chunk.mk ("ab".toList) [] 2).text ≠ [] :=
  chunk_markdown_text_ne_nil ("ab".toList) 1000 100 (by decide) (by decide)
    (Chunk.mk ("ab".toList) [] 2) (by decide)

/-- Counterexample to C7 as stated: the empty document yields exactly one chunk
and its text is empty. -/
theorem chunk_markdown_empty_doc_empty_chunk :
    chunk_markdown [] 1000 100 = [⟨[], [], 0⟩] ∧ (Chunk.mk [] [] 0).text = [] :=
  ⟨by decide, rfl⟩

/-! Overlap between consecutive chunks (claims C1 and C9). -/

theorem sharesAtLeastB_intro (j : Nat) (c1 c2 : Chunk) (m : Nat)
    (h1 : j ≤ m) (h2 : m ≤ (chunkLines c1).length) (h3 : m ≤ (chunkLines c2).length)
    (h4 : lastN m (chunkLines c1) = (chunkLines c2).take m) :
    sharesAtLeastB j c1 c2 = true := by
  unfold sharesAtLeastB
  rw [List.any_eq_true]
  refine ⟨m, List.mem_range.mpr (by omega), ?_⟩
  simp only [Bool.and_eq_true, decide_eq_true_eq]
  exact ⟨⟨h1, h3⟩, h4⟩

theorem overlapInv_flush (st : SplitState) (h : OverlapInv st)
    (hbne : st.current_chunk ≠ []) : OverlapInv (flushChunk st) := by
  obtain ⟨hchain, hfree, hsz, hlink⟩ := h
  have hclc : splitOnChar '\n' (bufJoin st.current_chunk) = st.current_chunk :=
    chunkLines_of_bufJoin _ hbne hfree
  refine ⟨?_, ?_, rfl, ?_⟩
  · rw [show (flushChunk st).chunks = st.chunks ++
      [⟨bufJoin st.current_chunk, hdrJoin st.current_headers, st.current_size⟩] from rfl]
    rw [List.chain'_append]
    refine ⟨hchain, List.chain'_singleton _, ?_⟩
    intro x hx y hy
    have hy' : y = ⟨bufJoin st.current_chunk, hdrJoin st.current_headers, st.current_size⟩ := by
      have := hy
      simp only [List.head?_cons, Option.mem_def, Option.some_inj] at this
      exact this.symm
    subst hy'
    rcases hlink x hx with ⟨L, rest, hLne, hLfree, htext, hbuf⟩
    have hclx : chunkLines x = L := by
      rw [chunkLines, htext]
      exact chunkLines_of_bufJoin _ hLne hLfree
    have hcly : chunkLines ⟨bufJoin st.current_chunk, hdrJoin st.current_headers,
        st.current_size⟩ = st.current_chunk := hclc
    apply sharesAtLeastB_intro _ _ _ (min 3 L.length)
    · rw [hclx]
    · rw [hclx]
      omega
    · rw [hcly, hbuf, List.length_append, ovTake_length]
      omega
    · rw [hclx, hcly, hbuf, ← ovTake_lastN]
      rw [show min 3 L.length = (ovTake L).length from (ovTake_length L).symm]
      rw [List.take_left]
  · intro l hl
    exact hfree l (ovTake_subset _ hl)
  · intro c hc
    have hc' : c = ⟨bufJoin st.current_chunk, hdrJoin st.current_headers, st.current_size⟩ := by
      have := List.getLast?_concat (a :=
        (⟨bufJoin st.current_chunk, hdrJoin st.current_headers, st.current_size⟩ : Chunk))
        st.chunks
      rw [show (flushChunk st).chunks = st.chunks ++
        [⟨bufJoin st.current_chunk, hdrJoin st.current_headers, st.current_size⟩] from rfl] at hc
      rw [this] at hc
      exact (Option.some_inj.mp hc).symm
    subst hc'
    exact ⟨st.current_chunk, [], hbne, hfree, rfl, by
      rw [List.append_nil]
      rfl⟩

theorem overlapInv_appendLine (st : SplitState) (line : Str) (h : OverlapInv st)
    (hlf : '\n' ∉ line) : OverlapInv (appendLine st line) := by
  obtain ⟨hchain, hfree, hsz, hlink⟩ := h
  refine ⟨hchain, ?_, ?_, ?_⟩
  · intro l hl
    rcases List.mem_append.mp hl with h1 | h2
    · exact hfree l h1
    · rcases List.mem_singleton.mp h2 with rfl
      exact hlf
  · show st.current_size + line.length = sumLens (st.current_chunk ++ [line])
    rw [sumLens_append, sumLens_singleton, hsz]
  · intro c hc
    rcases hlink c hc with ⟨L, rest, hLne, hLfree, htext, hbuf⟩
    exact ⟨L, rest ++ [line], hLne, hLfree, htext, by
      show st.current_chunk ++ [line] = ovTake L ++ (rest ++ [line])
      rw [hbuf, List.append_assoc]⟩

theorem overlapInv_processLine (cs : Nat) (st : SplitState) (line : Str)
    (h : OverlapInv st) (hlf : '\n' ∉ line) : OverlapInv (processLine cs st line) := by
  rcases processLine_shape cs st line with ⟨st1, hst1, hout⟩
  have h1 : OverlapInv st1 := by
    rcases hst1 with ⟨rfl, _⟩ | ⟨rfl, _⟩ | ⟨rfl, _, hf⟩
    · exact h
    · exact h
    · exact overlapInv_flush st h
        (ne_of_sumLens_pos _ (by rw [← h.2.2.1]; omega)).1
  have h2 : OverlapInv (appendLine st1 line) := overlapInv_appendLine st1 line h1 hlf
  rcases hout with ⟨heq, _⟩ | heq
  · rw [heq]
    exact overlapInv_flush _ h2 (by
      show st1.current_chunk ++ [line] ≠ []
      simp)
  · rw [heq]
    exact h2

theorem overlapInv_chunkFold (cs : Nat) (ls : List Str) :
    ∀ st, (∀ l ∈ ls, '\n' ∉ l) → OverlapInv st → OverlapInv (chunkFold cs st ls) := by
  induction ls with
  | nil => intro st _ h; exact h
  | cons x xs ih =>
    intro st hfree h
    exact ih _ (fun l hl => hfree l (List.mem_cons_of_mem x hl))
      (overlapInv_processLine cs st x h (hfree x (List.mem_cons_self x xs)))

/-- Claim C1 amended — for every document, `chunk_size` and `overlap` argument,
each chunk after the first shares at least `min 3 (previous chunk's line count)`
trailing/leading lines with its predecessor: the buffer is always reset to its
last three lines on flush, regardless of the `overlap` parameter. -/
theorem chunk_markdown_overlap_three (content : Str) (cs ov : Nat) :
    List.Chain' (fun c1 c2 => sharesAtLeastB (min 3 (chunkLines c1).length) c1 c2 = true)
      (chunk_markdown content cs ov) := by
  have hfree : ∀ l ∈ splitOnChar '\n' content, '\n' ∉ l :=
    fun l hl => not_mem_of_mem_splitOnChar '\n' content l hl
  have hinit : OverlapInv ⟨[], [], [], 0⟩ :=
    ⟨List.chain'_nil, by simp, rfl, fun c hc => by simp at hc⟩
  have hInv := overlapInv_chunkFold cs (splitOnChar '\n' content) _ hfree hinit
  simp only [chunk_markdown]
  split
  · exact hInv.1
  · rename_i hbne
    exact (overlapInv_flush _ hInv hbne).1

/-- Counterexample to C1 as stated: with `overlap = 5` and a document whose first
chunk has 4 lines, consecutive chunks share only 3 lines, fewer than
`min 5 4 = 4`. -/
theorem chunk_markdown_overlap_cex :
    1 < (chunk_markdown ("aaa\nbbb\nccc\nddd\neee".toList) 10 5).length ∧
    chainSharesB 5 (chunk_markdown ("aaa\nbbb\nccc\nddd\neee".toList) 10 5) = false := by
  constructor
  · decide
  · decide

/-- Claim C9 — the output of `chunk_markdown` does not depend on the `overlap`
argument: the implementation always retains a fixed 3 trailing lines on flush
and never reads the parameter. -/
theorem chunk_markdown_overlap_param_irrelevant (content : Str) (cs o1 o2 : Nat) :
    chunk_markdown content cs o1 = chunk_markdown content cs o2 := rfl

/-! Header paths of chunks (claim C3). -/

theorem hdrStack_append_singleton (done : List Str) (l : Str) :
    hdrStack (done ++ [l]) = hdrUpdate (hdrStack done) l := by
  rw [hdrStack, hdrStack, List.foldl_append]
  rfl

theorem getLast?_append_right (t b : List Str) (hb : b ≠ []) :
    (t ++ b).getLast? = b.getLast? := by
  rw [List.getLast?_append]
  cases hb' : b.getLast? with
  | none => exact absurd (List.getLast?_eq_none_iff.mp hb') hb
  | some x => rfl

theorem hdrOKC_mono (done more : List Str) (c : Chunk) (h : HdrOKC done c) :
    HdrOKC (done ++ more) c := by
  rcases h with ⟨p, s, L, hps, hp, hL, hLf, ht, hh, hlast⟩
  exact ⟨p, s ++ more, L, by rw [hps, List.append_assoc], hp, hL, hLf, ht, hh, hlast⟩

theorem headerInv_flush (done : List Str) (st : SplitState) (h : HeaderInv done st)
    (hbne : st.current_chunk ≠ []) : HeaderInv done (flushChunk st) := by
  obtain ⟨hhd, ⟨t, hbuf⟩, hfree, hsz, hcks⟩ := h
  have hbfree : ∀ l ∈ st.current_chunk, '\n' ∉ l :=
    fun l hl => hfree l (hbuf ▸ List.mem_append_right t hl)
  refine ⟨hhd, ?_, hfree, rfl, ?_⟩
  · rcases exists_prefix_ovTake st.current_chunk with ⟨pre, hpre⟩
    exact ⟨t ++ pre, by
      show done = t ++ pre ++ ovTake st.current_chunk
      rw [List.append_assoc, ← hpre, hbuf]⟩
  · intro c hc
    rcases List.mem_append.mp hc with hold | hnew
    · exact hcks c hold
    · rcases List.mem_singleton.mp hnew with rfl
      refine ⟨done, [], st.current_chunk, (List.append_nil done).symm, ?_, hbne, hbfree,
        rfl, ?_, ?_⟩
      · intro hd
        rw [hd] at hbuf
        exact hbne (List.append_eq_nil.mp hbuf.symm).2
      · show hdrJoin st.current_headers = hdrJoin (hdrStack done)
        rw [hhd]
      · rw [hbuf]
        exact (getLast?_append_right t st.current_chunk hbne).symm

theorem headerInv_processLine (cs : Nat) (done : List Str) (st : SplitState) (line : Str)
    (h : HeaderInv done st) (hlf : '\n' ∉ line) :
    HeaderInv (done ++ [line]) (processLine cs st line) := by
  rcases processLine_shape cs st line with ⟨st1, hst1, hout⟩
  have hfree' : ∀ l ∈ done ++ [line], '\n' ∉ l := by
    intro l hl
    rcases List.mem_append.mp hl with h1 | h2
    · exact h.2.2.1 l h1
    · rcases List.mem_singleton.mp h2 with rfl
      exact hlf
  have hst1facts : st1.current_headers = hdrStack (done ++ [line]) ∧
      (∃ t, done = t ++ st1.current_chunk) ∧
      st1.current_size = sumLens st1.current_chunk ∧
      (∀ c ∈ st1.chunks, HdrOKC done c) := by
    rcases hst1 with ⟨rfl, hnh⟩ | ⟨rfl, hh⟩ | ⟨rfl, hh, hf⟩
    · refine ⟨?_, h.2.1, h.2.2.2⟩
      rw [hdrStack_append_singleton, hdrUpdate, if_neg hnh]
      exact h.1
    · refine ⟨?_, h.2.1, h.2.2.2⟩
      show st.current_headers.take (headerLevel line - 1) ++ [headerText line] =
        hdrStack (done ++ [line])
      rw [hdrStack_append_singleton, hdrUpdate, if_pos hh, h.1]
    · have hflush := headerInv_flush done st h
        (ne_of_sumLens_pos _ (by rw [← h.2.2.2.1]; omega)).1
      refine ⟨?_, hflush.2.1, hflush.2.2.2⟩
      show (flushChunk st).current_headers.take (headerLevel line - 1) ++ [headerText line] =
        hdrStack (done ++ [line])
      rw [hdrStack_append_singleton, hdrUpdate, if_pos hh, ← hflush.1]
  obtain ⟨hh1, ⟨t, hb1⟩, hs1, hck1⟩ := hst1facts
  have h2 : HeaderInv (done ++ [line]) (appendLine st1 line) := by
    refine ⟨hh1, ⟨t, ?_⟩, hfree', ?_, ?_⟩
    · show done ++ [line] = t ++ (st1.current_chunk ++ [line])
      rw [hb1, List.append_assoc]
    · show st1.current_size + line.length = sumLens (st1.current_chunk ++ [line])
      rw [sumLens_append, sumLens_singleton, hs1]
    · intro c hc
      exact hdrOKC_mono done [line] c (hck1 c hc)
  rcases hout with ⟨heq, _⟩ | heq
  · rw [heq]
    exact headerInv_flush _ _ h2 (by
      show st1.current_chunk ++ [line] ≠ []
      simp)
  · rw [heq]
    exact h2

theorem headerInv_chunkFold (cs : Nat) (ls : List Str) :
    ∀ st done, (∀ l ∈ ls, '\n' ∉ l) → HeaderInv done st →
      HeaderInv (done ++ ls) (chunkFold cs st ls) := by
  induction ls with
  | nil =>
    intro st done _ h
    simpa using h
  | cons x xs ih =>
    intro st done hfree h
    have h1 := headerInv_processLine cs done st x h (hfree x (List.mem_cons_self x xs))
    have h2 := ih _ _ (fun l hl => hfree l (List.mem_cons_of_mem x hl)) h1
    simpa using h2

/-- Claim C3 amended — every chunk's `headers` string is the header stack in
scope at the chunk's last line: there is a prefix `p` of the document's lines,
ending at the chunk's last line, such that `headers` is the
` > `-join of the stack obtained by folding the truncate-to-(level−1)-and-append
update over `p`.  (As stated the claim is false: the stack reflects the chunk's
last line, not its first.) -/
theorem chunk_markdown_headers_scope (content : Str) (cs ov : Nat) (c : Chunk)
    (hc : c ∈ chunk_markdown content cs ov) :
    ∃ p s, splitOnChar '\n' content = p ++ s ∧ p ≠ [] ∧
      c.headers = hdrJoin (hdrStack p) ∧ (chunkLines c).getLast? = p.getLast? := by
  have hfree : ∀ l ∈ splitOnChar '\n' content, '\n' ∉ l :=
    fun l hl => not_mem_of_mem_splitOnChar '\n' content l hl
  have hinit : HeaderInv [] ⟨[], [], [], 0⟩ :=
    ⟨rfl, ⟨[], rfl⟩, by simp, rfl, by simp⟩
  have hInv := headerInv_chunkFold cs (splitOnChar '\n' content) _ [] hfree hinit
  rw [List.nil_append] at hInv
  have hfromOK : ∀ c', HdrOKC (splitOnChar '\n' content) c' →
      ∃ p s, splitOnChar '\n' content = p ++ s ∧ p ≠ [] ∧
        c'.headers = hdrJoin (hdrStack p) ∧ (chunkLines c').getLast? = p.getLast? := by
    intro c' hok
    rcases hok with ⟨p, s, L, hps, hp, hL, hLf, ht, hhd, hlast⟩
    refine ⟨p, s, hps, hp, hhd, ?_⟩
    rw [chunkLines, ht, chunkLines_of_bufJoin L hL hLf, hlast]
  revert hc
  simp only [chunk_markdown]
  split
  · intro hc
    exact hfromOK c (hInv.2.2.2.2 c hc)
  · rename_i hbne
    intro hc
    have hflush := headerInv_flush _ _ hInv hbne
    exact hfromOK c (hflush.2.2.2.2 c hc)

/-- Witness for the amended C3 at a concrete document. -/
theorem chunk_markdown_headers_scope_witness :
    ∃ p s, splitOnChar '\n' ("x\n# A\ny".toList) = p ++ s ∧ p ≠ [] ∧
      (Chunk.mk ("x\n# A\ny".toList) ("A".toList) 5).headers = hdrJoin (hdrStack p) ∧
      (chunkLines (Chunk.mk ("x\n# A\ny".toList) ("A".toList) 5)).getLast? = p.getLast? :=
  chunk_markdown_headers_scope ("x\n# A\ny".toList) 1000 100 _ (by decide)

/-- Counterexample to C3 as stated: in the document `"x\n# A\ny"` the single
chunk's first line is `"x"`, the document's first line, which no heading scope
includes (the stack before any line is `hdrStack [] = []`, whose join is the
empty header path) — yet the chunk's `headers` is `"A"`, the stack at its last
line. -/
theorem chunk_markdown_headers_cex :
    (chunk_markdown ("x\n# A\ny".toList) 1000 100).map Chunk.headers = ["A".toList] ∧
    (chunk_markdown ("x\n# A\ny".toList) 1000 100).map (fun c => (chunkLines c).head?) =
      [some ("x".toList)] ∧
    hdrJoin (hdrStack []) = [] ∧ ("A".toList : Str) ≠ [] :=
  ⟨by decide, by decide, rfl, by decide⟩

/-! Round-trip of the persisted index state (claim C10). -/

theorem skipWs_ws_cons (c : Char) (x : Str) (h : isJsonWs c = true) :
    skipWs (c :: x) = skipWs x := by
  rw [skipWs, skipWs, List.dropWhile_cons, if_pos h]

theorem skipWs_not_ws_cons (c : Char) (x : Str) (h : isJsonWs c = false) :
    skipWs (c :: x) = c :: x := by
  rw [skipWs, List.dropWhile_cons, if_neg (by rw [h]; exact Bool.false_ne_true)]

theorem quoteJson_append (s x : Str) :
    quoteJson s ++ x = '"' :: (escapeJson s ++ '"' :: x) := by
  simp [quoteJson, List.append_assoc]

theorem parseStringBody_escape (s r : Str) :
    parseStringBody (escapeJson s ++ '"' :: r) = some (s, r) := by
  induction s with
  | nil =>
    show parseStringBody ('"' :: r) = some ([], r)
    rw [parseStringBody.eq_def]
    dsimp only
    rw [if_pos rfl]
  | cons c cs ih =>
    by_cases hc : c = '"' ∨ c = '\\'
    · have he : escapeJson (c :: cs) = '\\' :: c :: escapeJson cs := by
        rw [escapeJson, if_pos hc]
        rfl
      rw [he, List.cons_append, List.cons_append, parseStringBody.eq_def]
      dsimp only
      rw [if_neg (by decide), if_pos rfl, if_pos hc, ih]
    · have he : escapeJson (c :: cs) = c :: escapeJson cs := by
        rw [escapeJson, if_neg hc]
        rfl
      have hq : ¬ c = '"' := fun h => hc (Or.inl h)
      have hb : ¬ c = '\\' := fun h => hc (Or.inr h)
      rw [he, List.cons_append, parseStringBody.eq_def]
      dsimp only
      rw [if_neg hq, if_neg hb, ih]

theorem skipWs_to_quote (y x : Str) :
    skipWs ('\n' :: ' ' :: ' ' :: ' ' :: ' ' :: (quoteJson y ++ x)) =
      '"' :: (escapeJson y ++ '"' :: x) := by
  rw [quoteJson_append]
  rw [skipWs_ws_cons _ _ (by decide), skipWs_ws_cons _ _ (by decide),
    skipWs_ws_cons _ _ (by decide), skipWs_ws_cons _ _ (by decide),
    skipWs_ws_cons _ _ (by decide), skipWs_not_ws_cons _ _ (by decide)]

theorem parseJString_quote (b : Str) : parseJString ('"' :: b) = parseStringBody b := rfl

theorem skipWs_to_quote_sp (y x : Str) :
    skipWs (' ' :: (quoteJson y ++ x)) = '"' :: (escapeJson y ++ '"' :: x) := by
  rw [quoteJson_append]
  rw [skipWs_ws_cons _ _ (by decide), skipWs_not_ws_cons _ _ (by decide)]

theorem parsePairsAux_step (fuel : Nat) (s : Str) :
    parsePairsAux (fuel + 1) s =
      match parseJString (skipWs s) with
      | none => none
      | some (k, r1) =>
        match skipWs r1 with
        | [] => none
        | c2 :: r2 =>
          if c2 = ':' then
            match parseJString (skipWs r2) with
            | none => none
            | some (v, r3) =>
              match skipWs r3 with
              | [] => none
              | c3 :: r4 =>
                if c3 = ',' then
                  match parsePairsAux fuel r4 with
                  | some (ps, r5) => some ((k, v) :: ps, r5)
                  | none => none
                else if c3 = '\x7d' then some ([(k, v)], r4)
                else none
          else none := rfl

theorem parsePairsAux_print (pairs : List (Str × Str)) :
    ∀ fuel rest, pairs ≠ [] → pairs.length ≤ fuel →
      parsePairsAux fuel ('\n' :: (printPairs pairs ++ '\n' :: ' ' :: ' ' :: '\x7d' :: rest)) =
        some (pairs, rest) := by
  induction pairs with
  | nil => intro fuel rest hne _; exact absurd rfl hne
  | cons kv ps ih =>
    intro fuel rest _ hlen
    obtain ⟨k, v⟩ := kv
    cases fuel with
    | zero => simp at hlen
    | succ fuel =>
      cases ps with
      | nil =>
        have hI : '\n' :: (printPairs [(k, v)] ++ '\n' :: ' ' :: ' ' :: '\x7d' :: rest) =
            '\n' :: ' ' :: ' ' :: ' ' :: ' ' :: (quoteJson k ++ ':' :: ' ' ::
              (quoteJson v ++ ('\n' :: ' ' :: ' ' :: '\x7d' :: rest))) := by
          simp [printPairs, joinSep, List.append_assoc]
        rw [hI, parsePairsAux_step, skipWs_to_quote, parseJString_quote,
          parseStringBody_escape]
        dsimp only
        rw [skipWs_not_ws_cons _ _ (by decide)]
        dsimp only
        rw [if_pos rfl, skipWs_to_quote_sp, parseJString_quote, parseStringBody_escape]
        dsimp only
        rw [skipWs_ws_cons _ _ (by decide), skipWs_ws_cons _ _ (by decide),
          skipWs_ws_cons _ _ (by decide), skipWs_not_ws_cons _ _ (by decide)]
        dsimp only
        rw [if_neg (by decide), if_pos rfl]
      | cons p2 ps' =>
        have hI : '\n' :: (printPairs ((k, v) :: p2 :: ps') ++
              '\n' :: ' ' :: ' ' :: '\x7d' :: rest) =
            '\n' :: ' ' :: ' ' :: ' ' :: ' ' :: (quoteJson k ++ ':' :: ' ' ::
              (quoteJson v ++ (',' :: '\n' :: (printPairs (p2 :: ps') ++
                '\n' :: ' ' :: ' ' :: '\x7d' :: rest)))) := by
          simp [printPairs, joinSep_cons_cons, List.append_assoc]
        rw [hI, parsePairsAux_step, skipWs_to_quote, parseJString_quote,
          parseStringBody_escape]
        dsimp only
        rw [skipWs_not_ws_cons _ _ (by decide)]
        dsimp only
        rw [if_pos rfl, skipWs_to_quote_sp, parseJString_quote, parseStringBody_escape]
        dsimp only
        rw [skipWs_not_ws_cons _ _ (by decide)]
        dsimp only
        rw [if_pos rfl, ih fuel rest (by simp) (by
          simp only [List.length_cons] at hlen ⊢
          omega)]

theorem printPairs_cons_shape (k v : Str) (ps : List (Str × Str)) (tail : Str) :
    ∃ z, '\n' :: (printPairs ((k, v) :: ps) ++ tail) =
      '\n' :: ' ' :: ' ' :: ' ' :: ' ' :: (quoteJson k ++ z) := by
  cases ps with
  | nil =>
    exact ⟨':' :: ' ' :: (quoteJson v ++ tail), by simp [printPairs, joinSep, List.append_assoc]⟩
  | cons p2 ps' =>
    exact ⟨':' :: ' ' :: (quoteJson v ++ (',' :: '\n' :: (printPairs (p2 :: ps') ++ tail))),
      by simp [printPairs, joinSep_cons_cons, List.append_assoc]⟩

theorem skipWs_printPairs_quote (k v : Str) (ps : List (Str × Str)) (tail : Str) :
    ∃ w, skipWs ('\n' :: (printPairs ((k, v) :: ps) ++ tail)) = '"' :: w := by
  rcases printPairs_cons_shape k v ps tail with ⟨z, hz⟩
  exact ⟨escapeJson k ++ '"' :: z, by rw [hz, skipWs_to_quote]⟩

theorem parseFilesObj_print (pairs : List (Str × Str)) (fuel : Nat) (rest : Str)
    (hlen : pairs.length ≤ fuel) :
    parseFilesObj fuel (printFilesObj pairs ++ rest) = some (pairs, rest) := by
  cases pairs with
  | nil =>
    show parseFilesObj fuel ('\x7b' :: '\x7d' :: rest) = some ([], rest)
    rw [parseFilesObj, skipWs_not_ws_cons _ _ (by decide)]
    dsimp only
    rw [if_pos rfl, skipWs_not_ws_cons _ _ (by decide)]
    dsimp only
    rw [if_pos rfl]
  | cons kv ps =>
    obtain ⟨k, v⟩ := kv
    have hI : printFilesObj ((k, v) :: ps) ++ rest =
        '\x7b' :: '\n' :: (printPairs ((k, v) :: ps) ++ '\n' :: ' ' :: ' ' :: '\x7d' :: rest) := by
      simp [printFilesObj, List.append_assoc]
    rw [hI, parseFilesObj, skipWs_not_ws_cons _ _ (by decide)]
    dsimp only
    rw [if_pos rfl]
    rcases skipWs_printPairs_quote k v ps ('\n' :: ' ' :: ' ' :: '\x7d' :: rest) with ⟨w, hw⟩
    rw [hw]
    dsimp only
    rw [if_neg (by decide)]
    exact parsePairsAux_print ((k, v) :: ps) fuel rest (by simp) hlen

theorem parseFilesObj_skip_sp (fuel : Nat) (z : Str) :
    parseFilesObj fuel (' ' :: z) = parseFilesObj fuel z := by
  rw [parseFilesObj, parseFilesObj, skipWs_ws_cons _ _ (by decide)]

theorem printPairs_length_ge (pairs : List (Str × Str)) :
    pairs.length ≤ (printPairs pairs).length := by
  induction pairs with
  | nil => simp [printPairs, joinSep]
  | cons kv ps ih =>
    cases ps with
    | nil => simp [printPairs, joinSep]
    | cons p2 ps' =>
      have h : printPairs (kv :: p2 :: ps') =
          (' ' :: ' ' :: ' ' :: ' ' :: (quoteJson kv.1 ++ ':' :: ' ' :: quoteJson kv.2))
            ++ [',', '\n'] ++ printPairs (p2 :: ps') := by
        simp [printPairs, joinSep_cons_cons]
      rw [h]
      simp only [List.length_append, List.length_cons] at ih ⊢
      omega

theorem files_length_le_fuel (s : IndexState) :
    s.files.length ≤ (save_index_state s).length + 1 := by
  have h1 := printPairs_length_ge s.files
  have h2 : (printFilesObj s.files).length ≤ (save_index_state s).length := by
    have hS : save_index_state s = '\x7b' :: '\n' :: ' ' :: ' ' ::
        (quoteJson ("files".toList) ++ ':' :: ' ' ::
          (printFilesObj s.files ++ ',' :: '\n' :: ' ' :: ' ' ::
            (quoteJson ("last_full_index".toList) ++ ':' :: ' ' ::
              ((match s.last_full_index with
                | none => "null".toList
                | some t => quoteJson t) ++ ['\n', '\x7d'])))) := rfl
    rw [hS]
    simp only [List.length_append, List.length_cons]
    omega
  have h3 : s.files.length ≤ (printFilesObj s.files).length := by
    cases hf : s.files with
    | nil => simp [printFilesObj]
    | cons kv ps =>
      have := printPairs_length_ge (kv :: ps)
      simp only [printFilesObj, List.length_cons, List.length_append]
      simp only [List.length_cons] at this
      omega
  omega

/-- Claim C10 — deserializing after serializing is the identity on index states
of the persisted shape (printable-ASCII path, fingerprint and timestamp
strings; the JSON writer model coincides with `json.dumps(indent=2)` exactly
on that shape). -/
theorem load_index_state_save_index_state (s : IndexState) (h : WfState s) :
    load_index_state (some (save_index_state s)) = some s := by
  show parseIndexState (save_index_state s) = some s
  have hS : save_index_state s = '\x7b' :: '\n' :: ' ' :: ' ' ::
      (quoteJson ("files".toList) ++ ':' :: ' ' ::
        (printFilesObj s.files ++ ',' :: '\n' :: ' ' :: ' ' ::
          (quoteJson ("last_full_index".toList) ++ ':' :: ' ' ::
            ((match s.last_full_index with
              | none => "null".toList
              | some t => quoteJson t) ++ ['\n', '\x7d'])))) := rfl
  rw [parseIndexState]
  rw [hS, skipWs_not_ws_cons _ _ (by decide)]
  dsimp only
  rw [if_pos rfl]
  rw [skipWs_ws_cons _ _ (by decide), skipWs_ws_cons _ _ (by decide),
    skipWs_ws_cons _ _ (by decide), quoteJson_append,
    skipWs_not_ws_cons _ _ (by decide), parseJString_quote, parseStringBody_escape]
  dsimp only
  rw [if_pos rfl, skipWs_not_ws_cons _ _ (by decide)]
  dsimp only
  rw [if_pos rfl, parseFilesObj_skip_sp]
  rw [parseFilesObj_print s.files _ _ (by
    have hb := files_length_le_fuel s
    rw [hS] at hb
    exact hb)]
  dsimp only
  rw [skipWs_not_ws_cons _ _ (by decide)]
  dsimp only
  rw [if_pos rfl]
  rw [skipWs_ws_cons _ _ (by decide), skipWs_ws_cons _ _ (by decide),
    skipWs_ws_cons _ _ (by decide), quoteJson_append,
    skipWs_not_ws_cons _ _ (by decide), parseJString_quote, parseStringBody_escape]
  dsimp only
  rw [if_pos rfl, skipWs_not_ws_cons _ _ (by decide)]
  dsimp only
  rw [if_pos rfl]
  have hlfi : parseLfi (' ' :: ((match s.last_full_index with
      | none => "null".toList
      | some t => quoteJson t) ++ ['\n', '\x7d'])) =
      some (s.last_full_index, ['\n', '\x7d']) := by
    cases hl : s.last_full_index with
    | none =>
      rw [parseLfi]
      dsimp only
      rw [show skipWs (' ' :: ("null".toList ++ ['\n', '\x7d'])) =
          'n' :: 'u' :: 'l' :: 'l' :: '\n' :: '\x7d' :: [] from by
        rw [skipWs_ws_cons _ _ (by decide)]
        rfl]
      rw [if_pos (by rfl)]
      rfl
    | some t =>
      rw [parseLfi]
      dsimp only
      rw [skipWs_to_quote_sp]
      rw [if_neg (by simp)]
      rw [parseJString_quote, parseStringBody_escape]
  rw [hlfi]
  dsimp only
  rw [skipWs_ws_cons _ _ (by decide), skipWs_not_ws_cons _ _ (by decide)]
  dsimp only
  rw [if_pos rfl, if_pos (show skipWs [] = [] from rfl)]

/-- Witness for C10 at a concrete well-formed state. -/
theorem load_index_state_save_index_state_witness :
    load_index_state (some (save_index_state
      ⟨[("/a/b.md".toList, "ff00".toList)], some ("2024-01-01T00:00:00".toList)⟩)) =
      some ⟨[("/a/b.md".toList, "ff00".toList)], some ("2024-01-01T00:00:00".toList)⟩ :=
  load_index_state_save_index_state _ (by
    refine ⟨?_, ?_, ?_⟩
    · intro kv hkv
      rcases List.mem_singleton.mp hkv with rfl
      exact ⟨by decide, by decide⟩
    · intro t ht
      rw [show t = "2024-01-01T00:00:00".toList from (Option.some_inj.mp ht).symm]
      decide
    · decide)

/-! Idempotent skip of unchanged files (claim C5). -/

/-- Claim C5 — when the stored fingerprint for a file equals the fingerprint of
its current content and `force` is false, `index_file` returns 0 chunks and
leaves the index state, the vector store and the archival list untouched; and
calling it again on the returned state is again the same no-op. -/
theorem index_file_skip_unchanged (md5 : Str → Str) (fs : Str → Option Str) (now : Str)
    (lettaAvail : Bool) (state : IndexState) (store : List ChromaDoc) (archival : List Str)
    (path content : Str) (hfs : fs path = some content)
    (hst : assocGet state.files path = some (md5 content)) :
    index_file md5 fs now lettaAvail state store archival path false =
      (0, state, store, archival) ∧
    index_file md5 fs now lettaAvail
      (index_file md5 fs now lettaAvail state store archival path false).2.1
      (index_file md5 fs now lettaAvail state store archival path false).2.2.1
      (index_file md5 fs now lettaAvail state store archival path false).2.2.2
      path false = (0, state, store, archival) := by
  have h1 : index_file md5 fs now lettaAvail state store archival path false =
      (0, state, store, archival) := by
    rw [index_file, hfs]
    dsimp only
    rw [if_pos ⟨rfl, hst⟩]
  refine ⟨h1, ?_⟩
  rw [h1]
  exact h1

/-- Witness for C5 at a concrete unchanged file. -/
theorem index_file_skip_unchanged_witness :
    index_file (fun s => s) (fun _ => some ("doc".toList)) [] false
      ⟨[("p".toList, "doc".toList)], none⟩ [] [] ("p".toList) false =
      (0, ⟨[("p".toList, "doc".toList)], none⟩, [], []) :=
  (index_file_skip_unchanged (fun s => s) (fun _ => some ("doc".toList)) [] false
    ⟨[("p".toList, "doc".toList)], none⟩ [] [] ("p".toList) ("doc".toList)
    rfl (by decide)).1

/-! Fact-memory score normalization (claim C2). -/

/-- Counterexample to C2 as stated: a mem0 hit with no backend confidence is
normalized to score 0, not to the neutral default 0.5. -/
theorem recall_mem0_missing_score_cex :
    ((AtlasRecall.recall (fun _ => []) [] [] 5
        (.ok [⟨some ("fact".toList), none, none⟩])
        (.ok ⟨[], false⟩) none).mem0.map Mem0Norm.score) = [(0 : ℚ)] ∧
      (0 : ℚ) ≠ 1/2 := by
  constructor
  · rfl
  · norm_num

/-- Claim C2 amended — the normalized score of a fact-memory hit is the
backend-reported confidence when present and 0 (not 0.5) when absent:
`recall` fills the score with `r.get("score", 0)`, and `recall_unified`'s
`item.get("score", 0.5)` default is unreachable because every item built by
`recall` carries a score. -/
theorem recall_mem0_score_getD_zero (strRepr : Mem0Raw → Str) (q now : Str) (lim : Nat)
    (l : List Mem0Raw) (chromab : Except Str ChromaResp)
    (lettab : Option (Except Str LettaResp)) :
    ((AtlasRecall.recall strRepr q now lim (.ok l) chromab lettab).mem0.map
        Mem0Norm.score = l.map (fun r => r.score.getD 0)) ∧
    ((mergedResults (AtlasRecall.recall strRepr q now lim (.ok l)
        (.ok ⟨[], false⟩) none)).map NormalizedResult.score =
      l.map (fun r => r.score.getD 0)) := by
  constructor
  · simp [AtlasRecall.recall, List.map_map, Function.comp]
  · simp [AtlasRecall.recall, mergedResults, List.map_map, Function.comp]

/-! Backend fault isolation (claim C6). -/

/-- Claim C6 — whichever one backend raises or is unavailable while the other
two succeed, `recall` (a total function: every backend failure is an
`Except.error` consumed here, never re-raised to the caller) records the
failure in that backend's diagnostic error field, leaves that backend's hit
list empty, and still returns both successful backends' normalized hits.
Four scenarios, in order: the fact backend (mem0) raises; the vector backend
(chroma) raises; the archival backend (letta) raises; the archival backend is
simply not connected (`none`), in which case its list is empty and no error is
recorded.  A successful archival backend is a status-200 response. -/
theorem recall_backend_fault_isolation (strRepr : Mem0Raw → Str) (q now : Str)
    (lim : Nat) (xs : List Mem0Raw) (resp : ChromaResp) (items : List LettaItem)
    (e : Str) :
    ((AtlasRecall.recall strRepr q now lim (.error e) (.ok resp)
        (some (.ok ⟨200, items⟩))).mem0 = [] ∧
      (AtlasRecall.recall strRepr q now lim (.error e) (.ok resp)
        (some (.ok ⟨200, items⟩))).mem0_error = some e ∧
      (AtlasRecall.recall strRepr q now lim (.error e) (.ok resp)
        (some (.ok ⟨200, items⟩))).chroma =
        resp.hits.map (fun h =>
          ⟨h.document, h.meta.source_file.getD ("unknown".toList), h.meta.headers.getD [],
           if resp.hasDistances then h.distance else 0, "chroma".toList⟩) ∧
      (AtlasRecall.recall strRepr q now lim (.error e) (.ok resp)
        (some (.ok ⟨200, items⟩))).chroma_error = none ∧
      (AtlasRecall.recall strRepr q now lim (.error e) (.ok resp)
        (some (.ok ⟨200, items⟩))).letta =
        items.map (fun it => ⟨it.text.getD [], "letta".toList⟩) ∧
      (AtlasRecall.recall strRepr q now lim (.error e) (.ok resp)
        (some (.ok ⟨200, items⟩))).letta_error = none) ∧
    ((AtlasRecall.recall strRepr q now lim (.ok xs) (.error e)
        (some (.ok ⟨200, items⟩))).chroma = [] ∧
      (AtlasRecall.recall strRepr q now lim (.ok xs) (.error e)
        (some (.ok ⟨200, items⟩))).chroma_error = some e ∧
      (AtlasRecall.recall strRepr q now lim (.ok xs) (.error e)
        (some (.ok ⟨200, items⟩))).mem0 =
        xs.map (fun r =>
          ⟨r.memory.getD (r.text.getD (strRepr r)), r.score.getD 0, "mem0".toList⟩) ∧
      (AtlasRecall.recall strRepr q now lim (.ok xs) (.error e)
        (some (.ok ⟨200, items⟩))).mem0_error = none ∧
      (AtlasRecall.recall strRepr q now lim (.ok xs) (.error e)
        (some (.ok ⟨200, items⟩))).letta =
        items.map (fun it => ⟨it.text.getD [], "letta".toList⟩) ∧
      (AtlasRecall.recall strRepr q now lim (.ok xs) (.error e)
        (some (.ok ⟨200, items⟩))).letta_error = none) ∧
    ((AtlasRecall.recall strRepr q now lim (.ok xs) (.ok resp) (some (.error e))).letta
        = [] ∧
      (AtlasRecall.recall strRepr q now lim (.ok xs) (.ok resp) (some (.error e))).letta_error
        = some e ∧
      (AtlasRecall.recall strRepr q now lim (.ok xs) (.ok resp) (some (.error e))).mem0 =
        xs.map (fun r =>
          ⟨r.memory.getD (r.text.getD (strRepr r)), r.score.getD 0, "mem0".toList⟩) ∧
      (AtlasRecall.recall strRepr q now lim (.ok xs) (.ok resp) (some (.error e))).chroma =
        resp.hits.map (fun h =>
          ⟨h.document, h.meta.source_file.getD ("unknown".toList), h.meta.headers.getD [],
           if resp.hasDistances then h.distance else 0, "chroma".toList⟩) ∧
      (AtlasRecall.recall strRepr q now lim (.ok xs) (.ok resp) (some (.error e))).mem0_error
        = none ∧
      (AtlasRecall.recall strRepr q now lim (.ok xs) (.ok resp) (some (.error e))).chroma_error
        = none) ∧
    ((AtlasRecall.recall strRepr q now lim (.ok xs) (.ok resp) none).letta = [] ∧
      (AtlasRecall.recall strRepr q now lim (.ok xs) (.ok resp) none).letta_error = none ∧
      (AtlasRecall.recall strRepr q now lim (.ok xs) (.ok resp) none).mem0 =
        xs.map (fun r =>
          ⟨r.memory.getD (r.text.getD (strRepr r)), r.score.getD 0, "mem0".toList⟩) ∧
      (AtlasRecall.recall strRepr q now lim (.ok xs) (.ok resp) none).chroma =
        resp.hits.map (fun h =>
          ⟨h.document, h.meta.source_file.getD ("unknown".toList), h.meta.headers.getD [],
           if resp.hasDistances then h.distance else 0, "chroma".toList⟩)) :=
  ⟨⟨rfl, rfl, rfl, rfl, rfl, rfl⟩, ⟨rfl, rfl, rfl, rfl, rfl, rfl⟩,
    ⟨rfl, rfl, rfl, rfl, rfl, rfl⟩, ⟨rfl, rfl, rfl, rfl⟩⟩

/-! Sort, dedup and truncate of merged results (claim C4). -/

theorem dedupeByKey_sublist (seen : List Str) (l : List NormalizedResult) :
    (dedupeByKey seen l).Sublist l := by
  induction l generalizing seen with
  | nil => exact List.Sublist.refl []
  | cons x xs ih =>
    rw [dedupeByKey]
    split
    · exact List.Sublist.cons x (ih seen)
    · exact List.Sublist.cons₂ x (ih (resKey x :: seen))

theorem dedupeByKey_find? (seen : List Str) (l : List NormalizedResult)
    (r : NormalizedResult) (h : r ∈ dedupeByKey seen l) :
    resKey r ∉ seen ∧
      l.find? (fun b => decide (resKey b = resKey r)) = some r := by
  induction l generalizing seen with
  | nil => cases h
  | cons x xs ih =>
    rw [dedupeByKey] at h
    by_cases hx : resKey x ∈ seen
    · rw [if_pos hx] at h
      obtain ⟨h1, h2⟩ := ih seen h
      have hne : ¬ resKey x = resKey r := fun he => h1 (he ▸ hx)
      refine ⟨h1, ?_⟩
      rw [List.find?_cons_of_neg _ (by simpa using hne), h2]
    · rw [if_neg hx] at h
      rcases List.mem_cons.mp h with rfl | hmem
      · exact ⟨hx, List.find?_cons_of_pos _ (by simp)⟩
      · obtain ⟨h1, h2⟩ := ih (resKey x :: seen) hmem
        have hxr : ¬ resKey x = resKey r := fun he =>
          h1 (he ▸ List.mem_cons_self (resKey x) seen)
        refine ⟨fun hs => h1 (List.mem_cons_of_mem _ hs), ?_⟩
        rw [List.find?_cons_of_neg _ (by simpa using hxr), h2]

theorem dedupeByKey_pairwise (seen : List Str) (l : List NormalizedResult) :
    (dedupeByKey seen l).Pairwise (fun a b => resKey a ≠ resKey b) := by
  induction l generalizing seen with
  | nil => exact List.Pairwise.nil
  | cons x xs ih =>
    rw [dedupeByKey]
    split
    · exact ih seen
    · refine List.Pairwise.cons ?_ (ih (resKey x :: seen))
      intro b hb
      have := (dedupeByKey_find? (resKey x :: seen) xs b hb).1
      exact fun he => this (he ▸ List.mem_cons_self (resKey x) seen)

theorem sorted_find?_score_max (l : List NormalizedResult)
    (hs : List.Sorted scoreDescRel l) (p : NormalizedResult → Bool)
    (a : NormalizedResult) (ha : l.find? p = some a) :
    ∀ b ∈ l, p b = true → b.score ≤ a.score := by
  induction l with
  | nil => cases ha
  | cons x xs ih =>
    by_cases hp : p x = true
    · rw [List.find?_cons_of_pos _ hp] at ha
      rcases Option.some_inj.mp ha with rfl
      intro b hb _
      rcases List.mem_cons.mp hb with rfl | hbx
      · exact le_refl _
      · exact List.rel_of_sorted_cons hs b hbx
    · rw [List.find?_cons_of_neg _ hp] at ha
      intro b hb hpb
      rcases List.mem_cons.mp hb with rfl | hbx
      · exact absurd hpb hp
      · exact ih (List.Sorted.of_cons hs) ha b hbx hpb

theorem dedupeByKey_length (seen : List Str) (l : List NormalizedResult) :
    (dedupeByKey seen l).length =
      ((l.map resKey).toFinset \ seen.toFinset).card := by
  induction l generalizing seen with
  | nil => simp [dedupeByKey]
  | cons x xs ih =>
    rw [dedupeByKey]
    by_cases hx : resKey x ∈ seen
    · rw [if_pos hx, ih seen, List.map_cons, List.toFinset_cons,
        Finset.insert_sdiff_of_mem _ (List.mem_toFinset.mpr hx)]
    · rw [if_neg hx, List.length_cons, ih (resKey x :: seen), List.map_cons,
        List.toFinset_cons, List.toFinset_cons, Finset.sdiff_insert]
      have hins : insert (resKey x) ((xs.map resKey).toFinset) \ seen.toFinset =
          insert (resKey x) ((xs.map resKey).toFinset \ seen.toFinset) := by
        ext a
        simp only [Finset.mem_sdiff, Finset.mem_insert]
        constructor
        · rintro ⟨h1 | h1, h2⟩
          · exact Or.inl h1
          · exact Or.inr ⟨h1, h2⟩
        · rintro (rfl | ⟨h1, h2⟩)
          · exact ⟨Or.inl rfl, fun hc => hx (List.mem_toFinset.mp hc)⟩
          · exact ⟨Or.inr h1, h2⟩
      rw [hins]
      by_cases hxs : resKey x ∈ (xs.map resKey).toFinset \ seen.toFinset
      · rw [Finset.insert_eq_self.mpr hxs, Finset.card_erase_of_mem hxs]
        have hpos : 0 < ((xs.map resKey).toFinset \ seen.toFinset).card :=
          Finset.card_pos.mpr ⟨resKey x, hxs⟩
        omega
      · rw [Finset.card_insert_of_not_mem hxs, Finset.erase_eq_of_not_mem hxs]

/-- Claim C4 — the ranked output of `recall_unified` with limit `L`: it is
sorted by non-increasing score; its fingerprints (first-100-character text
prefixes) are pairwise distinct; every output element is the first element with
its fingerprint in the score-descending order of the merged results, and its
score dominates every merged result sharing that fingerprint; and when the
merged results contain more than `L` pairwise-distinct fingerprints the output
has exactly `L` elements. -/
theorem recall_unified_rank_dedup (strRepr : Mem0Raw → Str) (q now : Str)
    (mem0b : Except Str (List Mem0Raw)) (chromab : Except Str ChromaResp)
    (lettab : Option (Except Str LettaResp)) (L : Nat) :
    List.Sorted (fun a b => b.score ≤ a.score)
      (AtlasRecall.recall_unified strRepr q now L mem0b chromab lettab) ∧
    (AtlasRecall.recall_unified strRepr q now L mem0b chromab lettab).Pairwise
      (fun a b => resKey a ≠ resKey b) ∧
    (∀ r ∈ AtlasRecall.recall_unified strRepr q now L mem0b chromab lettab,
      (sortByScoreDesc (mergedResults
          (AtlasRecall.recall strRepr q now (L * 2) mem0b chromab lettab))).find?
        (fun b => decide (resKey b = resKey r)) = some r) ∧
    (∀ r ∈ AtlasRecall.recall_unified strRepr q now L mem0b chromab lettab,
      ∀ b ∈ mergedResults (AtlasRecall.recall strRepr q now (L * 2) mem0b chromab lettab),
        resKey b = resKey r → b.score ≤ r.score) ∧
    (L < (((mergedResults (AtlasRecall.recall strRepr q now (L * 2) mem0b chromab
          lettab)).map resKey).toFinset).card →
      (AtlasRecall.recall_unified strRepr q now L mem0b chromab lettab).length = L) := by
  have hsorted : List.Sorted scoreDescRel (sortByScoreDesc (mergedResults
      (AtlasRecall.recall strRepr q now (L * 2) mem0b chromab lettab))) :=
    List.sorted_insertionSort scoreDescRel _
  have hout : AtlasRecall.recall_unified strRepr q now L mem0b chromab lettab =
      (dedupeByKey [] (sortByScoreDesc (mergedResults
        (AtlasRecall.recall strRepr q now (L * 2) mem0b chromab lettab)))).take L := rfl
  have hsub : (AtlasRecall.recall_unified strRepr q now L mem0b chromab lettab).Sublist
      (dedupeByKey [] (sortByScoreDesc (mergedResults
        (AtlasRecall.recall strRepr q now (L * 2) mem0b chromab lettab)))) := by
    rw [hout]
    exact List.take_sublist _ _
  have hsub2 : (AtlasRecall.recall_unified strRepr q now L mem0b chromab lettab).Sublist
      (sortByScoreDesc (mergedResults
        (AtlasRecall.recall strRepr q now (L * 2) mem0b chromab lettab))) :=
    hsub.trans (dedupeByKey_sublist _ _)
  have hperm : (sortByScoreDesc (mergedResults
      (AtlasRecall.recall strRepr q now (L * 2) mem0b chromab lettab))).Perm
      (mergedResults (AtlasRecall.recall strRepr q now (L * 2) mem0b chromab lettab)) :=
    List.perm_insertionSort scoreDescRel _
  refine ⟨?_, ?_, ?_, ?_, ?_⟩
  · exact List.Pairwise.sublist hsub2 hsorted
  · exact List.Pairwise.sublist hsub (dedupeByKey_pairwise [] _)
  · intro r hr
    exact (dedupeByKey_find? [] _ r (hsub.subset hr)).2
  · intro r hr b hb hkey
    have hfind := (dedupeByKey_find? [] _ r (hsub.subset hr)).2
    exact sorted_find?_score_max _ hsorted _ r hfind b (hperm.mem_iff.mpr hb)
      (by simpa using hkey)
  · intro hcard
    rw [hout, List.length_take, dedupeByKey_length]
    have hfs : ((sortByScoreDesc (mergedResults (AtlasRecall.recall strRepr q now (L * 2)
        mem0b chromab lettab))).map resKey).toFinset =
        ((mergedResults (AtlasRecall.recall strRepr q now (L * 2) mem0b chromab
          lettab)).map resKey).toFinset :=
      List.toFinset_eq_of_perm _ _ (hperm.map resKey)
    rw [hfs]
    simp only [List.toFinset_nil, Finset.sdiff_empty]
    omega

/-- Witness for C4 at three mem0 results with distinct prefixes and limit 2. -/
theorem recall_unified_rank_dedup_witness :
    (AtlasRecall.recall_unified (fun _ => []) [] [] 2
        (.ok [⟨some ("aa".toList), none, some 1⟩, ⟨some ("bb".toList), none, some (1/2)⟩,
          ⟨some ("cc".toList), none, some (3/4)⟩])
        (.ok ⟨[], false⟩) none).length = 2 ∧
    List.Sorted (fun a b => b.score ≤ a.score)
      (AtlasRecall.recall_unified (fun _ => []) [] [] 2
        (.ok [⟨some ("aa".toList), none, some 1⟩, ⟨some ("bb".toList), none, some (1/2)⟩,
          ⟨some ("cc".toList), none, some (3/4)⟩])
        (.ok ⟨[], false⟩) none) := by
  have h := recall_unified_rank_dedup (fun _ => []) [] []
    (.ok [⟨some ("aa".toList), none, some 1⟩, ⟨some ("bb".toList), none, some (1/2)⟩,
      ⟨some ("cc".toList), none, some (3/4)⟩])
    (.ok ⟨[], false⟩) none 2
  exact ⟨h.2.2.2.2 (by decide), h.1⟩

